import Mathlib

/-!
Verification of the feature computation engine of pyPPI
(`pyppi/data_mining/features.py`).

Python strings are embedded as `List Char` (`PyStr`).  The helper
`_split_string` and the main function `compute_interaction_features`
are translated directly from `features.py`.  The ontology collaborators
`get_up_to_lca` and `group_terms_by_ontology_type` are imported by
`features.py` from `pyppi.data_mining.ontology`, a module that is not
part of the sources at hand; they are modelled from the specification
(sections 4.2 and 4.3), as is the term store (a dictionary from
accession strings to `GOTerm` records, section 3 and 6).
-/

/-- Python string embedded as a list of characters. -/
abbrev PyStr := List Char

/-- Python `str.split(sep)` for a one-character separator: splits at every
occurrence of `sep`, keeping empty tokens (`"a,,b" → ["a","","b"]`,
`"" → [""]`). -/
def splitOnSep (sep : Char) : PyStr → List PyStr
  | [] => [[]]
  | c :: cs =>
    let rest := splitOnSep sep cs
    if c = sep then
      [] :: rest
    else
      match rest with
      | [] => [[c]]
      | t :: ts => (c :: t) :: ts

/-- Python `str.strip()`: drop leading and trailing whitespace. -/
def stripChars (cs : PyStr) : PyStr :=
  ((cs.dropWhile Char.isWhitespace).reverse.dropWhile Char.isWhitespace).reverse

/-- `_split_string(value, sep)` from `features.py`: `None` and the empty
string (the falsey strings) give `None`; otherwise split on `sep`, strip
each token, and keep only the tokens that are non-empty after stripping. -/
def splitStringSep (sep : Char) (value : Option PyStr) : Option (List PyStr) :=
  match value with
  | none => none
  | some s =>
    if s = [] then none
    else some (((splitOnSep sep s).map stripChars).filter (fun t => t ≠ []))

/-- `_split_string(value)` with the default separator `','`. -/
def _split_string (value : Option PyStr) : Option (List PyStr) :=
  splitStringSep ',' value

/-- Modelled from the spec: the three Gene Ontology sub-ontologies
(molecular function, biological process, cellular component) used as
the `ontology_type` classification of a term (spec section 3). -/
inductive OntType where
  | mf : OntType
  | bp : OntType
  | cc : OntType
deriving DecidableEq

/-- Modelled from the spec: one node of the ontology DAG held by the
term store (`pyppi.data_mining.ontology.GOTerm`, not in the sources):
a canonical accession `id`, an `ontology_type`, and the accessions of
its parents (spec section 3, Data Model). -/
structure GOTerm where
  id : PyStr
  ontology_type : OntType
  parents : List PyStr
deriving DecidableEq

/-- Modelled from the spec: the term store, a dictionary from accession
strings to `GOTerm` instances (the `dag` argument of
`compute_interaction_features`). -/
abbrev Dag := List (PyStr × GOTerm)

/-- Dictionary lookup `dag.get(accession)`: the term stored under an
accession, if any.  `dag[accession]` in the Python source raises
(`UnknownTermError` in the spec, section 7) exactly when this is
`none`. -/
def dagFind (dag : Dag) (accession : PyStr) : Option GOTerm :=
  (dag.find? (fun p => p.1 = accession)).map Prod.snd

/-- The protein annotation record read by the feature engine: six
optional delimited-string fields (spec sections 3 and 6; the
`..database.models.Protein` attributes read by `features.py`). -/
structure Protein where
  go_mf : Option PyStr
  go_bp : Option PyStr
  go_cc : Option PyStr
  interpro : Option PyStr
  pfam : Option PyStr
  keywords : Option PyStr
deriving DecidableEq

/-- The null-coalescing step `x = x if x is not None else []` applied by
`compute_interaction_features` after each `_split_string` call. -/
def orElseNil : Option (List PyStr) → List PyStr
  | some l => l
  | none => []

/-- The error raised on a failed term-store lookup (`UnknownTermError`
in the spec, section 7). -/
inductive FeatureError where
  | unknownTerm : PyStr → FeatureError
deriving DecidableEq

/-- The list comprehension `[dag[tid].id for tid in accs]` from
`features.py`: canonicalize each accession through the term store,
raising `UnknownTermError` at the first accession not in the store. -/
def canonList (dag : Dag) : List PyStr → Except FeatureError (List PyStr)
  | [] => Except.ok []
  | tid :: rest =>
    match dagFind dag tid with
    | none => Except.error (FeatureError.unknownTerm tid)
    | some term =>
      match canonList dag rest with
      | Except.error e => Except.error e
      | Except.ok ids => Except.ok (term.id :: ids)

/-- Fuel bound for the ancestor traversal: enough steps to pop every
initial term once and every parent reference stored in the DAG once per
node of the DAG. -/
def dagFuel (dag : Dag) (start : List PyStr) : Nat :=
  1 + start.length + (dag.length + 1) * (1 + (dag.map (fun e => e.2.parents.length)).sum)

/-- Modelled from the spec: worklist traversal computing, for all start
terms in the worklist, every term reachable through `parents` edges
(the transitive closure over `parents`, including the start terms
themselves — spec section 4.2 step 1).  `visited` accumulates the
result in first-discovered order; accessions not present in the store
contribute no parents. -/
def ancestorsFuel (dag : Dag) : Nat → List PyStr → List PyStr → List PyStr
  | 0, _, visited => visited
  | Nat.succ n, work, visited =>
    match work with
    | [] => visited
    | t :: rest =>
      if t ∈ visited then
        ancestorsFuel dag n rest visited
      else
        ancestorsFuel dag n
          (rest ++ (match dagFind dag t with
            | some term => term.parents
            | none => []))
          (visited ++ [t])

/-- Modelled from the spec: the full ancestor set of one term,
including the term itself (spec section 4.2 step 1). -/
def ancestors (dag : Dag) (t : PyStr) : List PyStr :=
  ancestorsFuel dag (dagFuel dag [t]) [t] []

/-- Modelled from the spec: the least-common-ancestor candidates of a
pair `(ta, tb)`: common ancestors of `ta` and `tb` such that no strict
descendant inside the common-ancestor set is also a common ancestor
(spec section 4.2 step 2). -/
def lcasOf (dag : Dag) (ta tb : PyStr) : List PyStr :=
  let common := (ancestors dag ta).filter (fun c => c ∈ ancestors dag tb)
  common.filter (fun c => ! common.any (fun d => d ≠ c && c ∈ ancestors dag d))

/-- Modelled from the spec: for one pair `(ta, tb)` and each qualifying
least common ancestor `c`, all terms on some path from `ta` up to `c`
and from `tb` up to `c`, `c` itself included (spec section 4.2
step 3). -/
def inducedForPair (dag : Dag) (ta tb : PyStr) : List PyStr :=
  (lcasOf dag ta tb).flatMap (fun c =>
    ((ancestors dag ta).filter (fun x => c ∈ ancestors dag x)) ++
    ((ancestors dag tb).filter (fun x => c ∈ ancestors dag x)))

/-- Keep the first occurrence of every element, dropping later
duplicates; `seen` holds the elements already emitted. -/
def dedupAux (seen : List PyStr) : List PyStr → List PyStr
  | [] => []
  | x :: xs => if x ∈ seen then dedupAux seen xs else x :: dedupAux (x :: seen) xs

/-- First-occurrence deduplication, order preserved. -/
def dedupFirst (l : List PyStr) : List PyStr :=
  dedupAux [] l

/-- Modelled from the spec: `get_up_to_lca(terms_a, terms_b)` from
`pyppi.data_mining.ontology` (not in the sources): the induced set,
over every pair drawn from the two annotation lists, of all terms on
paths up to the pair's least common ancestors, as an ordered sequence
in first-discovered order (spec section 4.2 steps 1-4). -/
def get_up_to_lca (dag : Dag) (terms_a terms_b : List PyStr) : List PyStr :=
  dedupFirst (terms_a.flatMap (fun ta => terms_b.flatMap (fun tb => inducedForPair dag ta tb)))

/-- Cap the number of occurrences of any element at `max_count`,
first-seen order preserved; `kept` holds the occurrences already
emitted. -/
def capOccAux (max_count : Nat) (kept : List PyStr) : List PyStr → List PyStr
  | [] => []
  | x :: xs =>
    if kept.count x < max_count then
      x :: capOccAux max_count (x :: kept) xs
    else
      capOccAux max_count kept xs

/-- Occurrence cap: no element appears more than `max_count` times in
the result; occurrences beyond the cap are dropped, first-seen order
otherwise preserved (spec section 4.3). -/
def capOcc (max_count : Nat) (l : List PyStr) : List PyStr :=
  capOccAux max_count [] l

/-- The mapping returned by the regrouping filter: exactly the three
sub-ontology keys `mf`, `bp`, `cc` (spec section 4.3). -/
structure GroupedTerms where
  mf : List PyStr
  bp : List PyStr
  cc : List PyStr
deriving DecidableEq

/-- The terms of `terms` whose true `ontology_type` in the store is
`ty`, in input order; terms absent from the store qualify for no
sub-ontology. -/
def termsOfType (dag : Dag) (ty : OntType) (terms : List PyStr) : List PyStr :=
  terms.filter (fun t =>
    match dagFind dag t with
    | some term => term.ontology_type = ty
    | none => false)

/-- Modelled from the spec: `group_terms_by_ontology_type(terms,
max_count)` from `pyppi.data_mining.ontology` (not in the sources):
re-sort the combined induced list by each term's true `ontology_type`
and cap the occurrences of any single accession at `max_count`,
first-seen order preserved (spec section 4.3). -/
def group_terms_by_ontology_type (dag : Dag) (terms : List PyStr) (max_count : Nat) :
    GroupedTerms :=
  GroupedTerms.mk
    (capOcc max_count (termsOfType dag OntType.mf terms))
    (capOcc max_count (termsOfType dag OntType.bp terms))
    (capOcc max_count (termsOfType dag OntType.cc terms))

/-- The feature record: the Python `dict` built by
`compute_interaction_features`, as an ordered association list from
feature name to list of annotations. -/
abbrev FeatureRecord := List (PyStr × List PyStr)

/-- The `dict(go_mf=..., ..., keywords=...)` constructor at the end of
`compute_interaction_features`, keys in the source's order. -/
def featureRecordOf (go_mf go_bp go_cc ulca_go_mf ulca_go_bp ulca_go_cc
    interpro pfam keywords : List PyStr) : FeatureRecord :=
  [("go_mf".toList, go_mf), ("go_bp".toList, go_bp), ("go_cc".toList, go_cc),
   ("ulca_go_mf".toList, ulca_go_mf), ("ulca_go_bp".toList, ulca_go_bp),
   ("ulca_go_cc".toList, ulca_go_cc),
   ("interpro".toList, interpro), ("pfam".toList, pfam), ("keywords".toList, keywords)]

/-- Dictionary lookup on a feature record. -/
def recordField (r : FeatureRecord) (key : PyStr) : Option (List PyStr) :=
  (r.find? (fun p => p.1 = key)).map Prod.snd

/-- `compute_interaction_features(source, target, dag)` from
`features.py`, with the term store passed explicitly (the Python
default `dag=None` loads the active global instance, an external
resource outside the sources).  Returns `Except.ok none` when either
protein is `None`, propagates `UnknownTermError` from term-store
lookups, and otherwise returns the nine-key feature record. -/
def compute_interaction_features (dag : Dag) (source target : Option Protein) :
    Except FeatureError (Option FeatureRecord) :=
  match source, target with
  | some src, some tgt =>
    match canonList dag (orElseNil (_split_string src.go_mf)) with
    | Except.error e => Except.error e
    | Except.ok go_mf_source =>
    match canonList dag (orElseNil (_split_string src.go_bp)) with
    | Except.error e => Except.error e
    | Except.ok go_bp_source =>
    match canonList dag (orElseNil (_split_string src.go_cc)) with
    | Except.error e => Except.error e
    | Except.ok go_cc_source =>
    let interpro_source := orElseNil (_split_string src.interpro)
    let pfam_source := orElseNil (_split_string src.pfam)
    let keywords_source := orElseNil (_split_string src.keywords)
    match canonList dag (orElseNil (_split_string tgt.go_mf)) with
    | Except.error e => Except.error e
    | Except.ok go_mf_target =>
    match canonList dag (orElseNil (_split_string tgt.go_bp)) with
    | Except.error e => Except.error e
    | Except.ok go_bp_target =>
    match canonList dag (orElseNil (_split_string tgt.go_cc)) with
    | Except.error e => Except.error e
    | Except.ok go_cc_target =>
    let interpro_target := orElseNil (_split_string tgt.interpro)
    let pfam_target := orElseNil (_split_string tgt.pfam)
    let keywords_target := orElseNil (_split_string tgt.keywords)
    let terms := get_up_to_lca dag go_mf_source go_mf_target ++
      get_up_to_lca dag go_bp_source go_bp_target ++
      get_up_to_lca dag go_cc_source go_cc_target
    let grouped := group_terms_by_ontology_type dag terms 2
    match canonList dag grouped.mf with
    | Except.error e => Except.error e
    | Except.ok ulca_go_mf =>
    match canonList dag grouped.bp with
    | Except.error e => Except.error e
    | Except.ok ulca_go_bp =>
    match canonList dag grouped.cc with
    | Except.error e => Except.error e
    | Except.ok ulca_go_cc =>
    Except.ok (some (featureRecordOf
      (go_mf_source ++ go_mf_target)
      (go_bp_source ++ go_bp_target)
      (go_cc_source ++ go_cc_target)
      ulca_go_mf ulca_go_bp ulca_go_cc
      (interpro_source ++ interpro_target)
      (pfam_source ++ pfam_target)
      (keywords_source ++ keywords_target)))
  | _, _ => Except.ok none

/-- An accession behaves canonically in the store: any term found under
it carries it as `id` (spec section 3: `id` is the canonical accession;
looking a canonical accession up returns its own term). -/
def TermCanonical (dag : Dag) (a : PyStr) : Prop :=
  ∀ t, dagFind dag a = some t → t.id = a

/-- Well-formedness of the term store, from the spec's data model
(section 3): every stored term's `id` is a canonical accession, and
every parent reference is a canonical accession. -/
def WellFormedDag (dag : Dag) : Prop :=
  ∀ a term, dagFind dag a = some term →
    TermCanonical dag term.id ∧ ∀ p ∈ term.parents, TermCanonical dag p

/-- Executable check for one accession of `TermCanonical`. -/
def tcCheck (dag : Dag) (a : PyStr) : Bool :=
  match dagFind dag a with
  | none => true
  | some t => t.id = a

/-- Executable check implying `WellFormedDag`. -/
def wellFormedCheck (dag : Dag) : Bool :=
  dag.all (fun e => tcCheck dag e.2.id && e.2.parents.all (tcCheck dag))

/-- The six parsed-and-defaulted GO token lists of a protein, as handed
to the term store by `compute_interaction_features` (three fields per
protein; here gathered for one protein). -/
def parsedGoAccessions (p : Protein) : List PyStr :=
  orElseNil (_split_string p.go_mf) ++ orElseNil (_split_string p.go_bp) ++
    orElseNil (_split_string p.go_cc)

/-- A protein with every annotation field `None`. -/
def noneProtein : Protein :=
  Protein.mk none none none none none none

/-- A two-term molecular-function store used as concrete witness data:
`GO:1` has the single parent `GO:2`, a root. -/
def sampleDag : Dag :=
  [("GO:1".toList, GOTerm.mk "GO:1".toList OntType.mf ["GO:2".toList]),
   ("GO:2".toList, GOTerm.mk "GO:2".toList OntType.mf [])]

/-- Concrete source protein for witnesses. -/
def sampleSrc : Protein :=
  Protein.mk (some "GO:1".toList) none none (some "IPR1, xyz".toList) none none

/-- Concrete target protein for witnesses. -/
def sampleTgt : Protein :=
  Protein.mk (some "GO:2".toList) none none none none (some "kw1".toList)

/-- Whether a computation outcome is a propagated error. -/
def resultFails (v : Except FeatureError (Option FeatureRecord)) : Bool :=
  match v with
  | Except.error _ => true
  | Except.ok _ => false

/-- Field access on a successful, non-null computation outcome;
`none` when the computation failed, returned null, or lacks the key. -/
def okRecordField (v : Except FeatureError (Option FeatureRecord)) (key : PyStr) :
    Option (List PyStr) :=
  match v with
  | Except.ok (some r) => recordField r key
  | _ => none

/-- All six annotation fields of a protein are null or the empty
string. -/
def EmptyAnnotations (p : Protein) : Prop :=
  (p.go_mf = none ∨ p.go_mf = some []) ∧ (p.go_bp = none ∨ p.go_bp = some []) ∧
  (p.go_cc = none ∨ p.go_cc = some []) ∧ (p.interpro = none ∨ p.interpro = some []) ∧
  (p.pfam = none ∨ p.pfam = some []) ∧ (p.keywords = none ∨ p.keywords = some [])

/-- The feature record computed for `sampleSrc` and `sampleTgt` over
`sampleDag`. -/
def sampleRecord : FeatureRecord :=
  featureRecordOf ["GO:1".toList, "GO:2".toList] [] []
    ["GO:1".toList, "GO:2".toList] [] []
    ["IPR1".toList, "xyz".toList] [] ["kw1".toList]

/-- `splitOnSep` never returns the empty list of tokens. -/
theorem splitOnSep_ne_nil (sep : Char) (cs : PyStr) : splitOnSep sep cs ≠ [] := by
  induction cs with
  | nil => simp [splitOnSep]
  | cons c cs ih =>
    simp only [splitOnSep]
    by_cases hc : c = sep
    · simp [hc]
    · simp only [if_neg hc]
      cases h : splitOnSep sep cs with
      | nil => simp
      | cons t ts => simp

/-- Every character of every token produced by `splitOnSep` occurs in
the input and differs from the separator. -/
theorem splitOnSep_token_chars (sep : Char) (cs : PyStr) :
    ∀ t ∈ splitOnSep sep cs, ∀ c ∈ t, c ∈ cs ∧ c ≠ sep := by
  induction cs with
  | nil =>
    intro t ht c hc
    simp [splitOnSep] at ht
    subst ht
    simp at hc
  | cons d cs ih =>
    intro t ht c hc
    simp only [splitOnSep] at ht
    by_cases hd : d = sep
    · rw [if_pos hd] at ht
      rcases List.mem_cons.mp ht with h | h
      · subst h; simp at hc
      · rcases ih t h c hc with ⟨h1, h2⟩
        exact ⟨List.mem_cons_of_mem d h1, h2⟩
    · rw [if_neg hd] at ht
      rcases List.exists_cons_of_ne_nil (splitOnSep_ne_nil sep cs) with ⟨t0, ts, hrest⟩
      rw [hrest] at ht
      rcases List.mem_cons.mp ht with h | h
      · subst h
        rcases List.mem_cons.mp hc with h | h
        · rw [h]; exact ⟨List.mem_cons_self d cs, hd⟩
        · have ht0 : t0 ∈ splitOnSep sep cs := by rw [hrest]; exact List.mem_cons_self t0 ts
          rcases ih t0 ht0 c h with ⟨h1, h2⟩
          exact ⟨List.mem_cons_of_mem d h1, h2⟩
      · have hts : t ∈ splitOnSep sep cs := by rw [hrest]; exact List.mem_cons_of_mem t0 h
        rcases ih t hts c hc with ⟨h1, h2⟩
        exact ⟨List.mem_cons_of_mem d h1, h2⟩

/-- Stripping a list of whitespace characters leaves nothing. -/
theorem stripChars_eq_nil (cs : PyStr) (h : ∀ c ∈ cs, c.isWhitespace) :
    stripChars cs = [] := by
  unfold stripChars
  have h1 : cs.dropWhile Char.isWhitespace = [] := by
    rw [List.dropWhile_eq_nil_iff]
    exact h
  rw [h1]
  simp

/-- Claim C1: if either input protein is null,
`compute_interaction_features` returns null (no record), for every term
store and every content of the other input, and no error escapes. -/
theorem claim_C1 (dag : Dag) (source target : Option Protein)
    (h : source = none ∨ target = none) :
    compute_interaction_features dag source target = Except.ok none := by
  rcases h with h | h
  · rw [h]; cases target <;> rfl
  · rw [h]; cases source <;> rfl

/-- Witness for C1 at a concrete input: a null target. -/
theorem claim_C1_witness :
    ((some sampleSrc = (none : Option Protein)) ∨ ((none : Option Protein) = none)) ∧
    compute_interaction_features sampleDag (some sampleSrc) none = Except.ok none :=
  ⟨Or.inr rfl, claim_C1 sampleDag (some sampleSrc) none (Or.inr rfl)⟩

/-- Claim C3: the annotation parser maps null to null and the empty
string to null; any other string is split on the separator, each token
stripped of surrounding whitespace, and tokens that become empty are
dropped, order and duplicates preserved; in particular
`" a , ,b,  "` parses to `["a", "b"]`. -/
theorem claim_C3 :
    _split_string none = none ∧
    _split_string (some "".toList) = none ∧
    (∀ s : PyStr, s ≠ [] →
      _split_string (some s) =
        some (((splitOnSep ',' s).map stripChars).filter (fun t => t ≠ []))) ∧
    _split_string (some " a , ,b,  ".toList) = some ["a".toList, "b".toList] := by
  refine ⟨rfl, by decide, ?_, by decide⟩
  intro s h
  simp only [_split_string, splitStringSep]
  rw [if_neg h]

/-- Witness for C3's general clause at a concrete non-empty string. -/
theorem claim_C3_witness :
    (" x".toList ≠ ([] : PyStr)) ∧
    _split_string (some " x".toList) =
      some (((splitOnSep ',' " x".toList).map stripChars).filter (fun t => t ≠ [])) :=
  ⟨by decide, claim_C3.2.2.1 " x".toList (by decide)⟩

/-- Claim C7: `compute_interaction_features` is deterministic — two
calls with identical proteins and an identical term store yield
identical results (the embedding is a pure function of its three
arguments; the Python function reads no other state than the supplied
or active store and performs no I/O). -/
theorem claim_C7 (dagA dagB : Dag) (srcA srcB tgtA tgtB : Option Protein)
    (hdag : dagA = dagB) (hsrc : srcA = srcB) (htgt : tgtA = tgtB) :
    compute_interaction_features dagA srcA tgtA =
      compute_interaction_features dagB srcB tgtB := by
  rw [hdag, hsrc, htgt]

/-- Witness for C7 at a concrete repeated call. -/
theorem claim_C7_witness :
    compute_interaction_features sampleDag (some sampleSrc) (some sampleTgt) =
      compute_interaction_features sampleDag (some sampleSrc) (some sampleTgt) :=
  claim_C7 sampleDag sampleDag (some sampleSrc) (some sampleSrc)
    (some sampleTgt) (some sampleTgt) rfl rfl rfl

/-- Claim C9: a non-empty string made of only whitespace and separator
characters parses to the empty list (not to null); null comes out of
the parser only for a null or exactly-empty input. -/
theorem claim_C9 :
    (∀ s : PyStr, s ≠ [] → (∀ c ∈ s, c.isWhitespace ∨ c = ',') →
      _split_string (some s) = some []) ∧
    (∀ v : Option PyStr, _split_string v = none → v = none ∨ v = some []) := by
  constructor
  · intro s hne hws
    simp only [_split_string, splitStringSep]
    rw [if_neg hne]
    congr 1
    rw [List.filter_eq_nil_iff]
    intro t ht
    rcases List.mem_map.mp ht with ⟨t0, ht0, rfl⟩
    have hnil : stripChars t0 = [] := by
      apply stripChars_eq_nil
      intro c hc
      rcases splitOnSep_token_chars ',' s t0 ht0 c hc with ⟨h1, h2⟩
      rcases hws c h1 with h | h
      · exact h
      · exact absurd h h2
    simp [hnil]
  · intro v hv
    cases v with
    | none => exact Or.inl rfl
    | some s =>
      by_cases hs : s = []
      · exact Or.inr (by rw [hs])
      · exfalso
        simp only [_split_string, splitStringSep] at hv
        rw [if_neg hs] at hv
        exact Option.noConfusion hv

/-- Witness for C9 at the concrete whitespace-and-separator string
`" , "`. -/
theorem claim_C9_witness :
    (" , ".toList ≠ ([] : PyStr)) ∧ _split_string (some " , ".toList) = some [] :=
  ⟨by decide, claim_C9.1 " , ".toList (by decide) (by decide)⟩

/-- A successful canonicalization means every accession of the input
resolves in the store. -/
theorem canonList_ok_resolves {dag : Dag} {l r : List PyStr}
    (h : canonList dag l = Except.ok r) : ∀ a ∈ l, ∃ t, dagFind dag a = some t := by
  induction l generalizing r with
  | nil => intro a ha; exact absurd ha (List.not_mem_nil a)
  | cons x xs ih =>
    intro a ha
    simp only [canonList] at h
    cases hx : dagFind dag x with
    | none => rw [hx] at h; exact Except.noConfusion h
    | some term =>
      rw [hx] at h
      cases hrest : canonList dag xs with
      | error e => rw [hrest] at h; exact Except.noConfusion h
      | ok ids =>
        rcases List.mem_cons.mp ha with rfl | ha2
        · exact ⟨term, hx⟩
        · exact ih hrest a ha2

/-- If every accession of the input resolves in the store, the
canonicalization succeeds. -/
theorem canonList_resolves_ok {dag : Dag} {l : List PyStr}
    (h : ∀ a ∈ l, (dagFind dag a).isSome = true) :
    ∃ r, canonList dag l = Except.ok r := by
  induction l with
  | nil => exact ⟨[], rfl⟩
  | cons x xs ih =>
    have hx := h x (List.mem_cons_self x xs)
    rcases Option.isSome_iff_exists.mp hx with ⟨t, ht⟩
    rcases ih (fun a ha => h a (List.mem_cons_of_mem x ha)) with ⟨r, hr⟩
    refine ⟨t.id :: r, ?_⟩
    simp only [canonList]
    rw [ht, hr]

/-- Canonicalization is the identity on lists of accessions that
resolve to terms carrying them as `id`. -/
theorem canonList_id {dag : Dag} {l : List PyStr}
    (h : ∀ a ∈ l, ∃ t, dagFind dag a = some t ∧ t.id = a) :
    canonList dag l = Except.ok l := by
  induction l with
  | nil => rfl
  | cons x xs ih =>
    rcases h x (List.mem_cons_self x xs) with ⟨t, ht, hid⟩
    have hr := ih (fun a ha => h a (List.mem_cons_of_mem x ha))
    simp only [canonList, ht, hr, hid]

/-- Every output entry of a successful canonicalization is the `id` of
some term found in the store. -/
theorem canonList_ok_out {dag : Dag} {l r : List PyStr}
    (h : canonList dag l = Except.ok r) :
    ∀ y ∈ r, ∃ a t, dagFind dag a = some t ∧ y = t.id := by
  induction l generalizing r with
  | nil =>
    intro y hy
    simp only [canonList] at h
    cases h
    exact absurd hy (List.not_mem_nil y)
  | cons x xs ih =>
    intro y hy
    simp only [canonList] at h
    cases hx : dagFind dag x with
    | none => rw [hx] at h; exact Except.noConfusion h
    | some term =>
      rw [hx] at h
      cases hrest : canonList dag xs with
      | error e => rw [hrest] at h; exact Except.noConfusion h
      | ok ids =>
        rw [hrest] at h
        cases h
        rcases List.mem_cons.mp hy with rfl | hy2
        · exact ⟨x, term, hx, rfl⟩
        · exact ih hrest y hy2

/-- Forward evaluation of `compute_interaction_features` once all nine
term-store canonicalizations are known to succeed. -/
theorem compute_eq_of_canon {dag : Dag} {src tgt : Protein}
    {mfS bpS ccS mfT bpT ccT umf ubp ucc : List PyStr}
    (hmfS : canonList dag (orElseNil (_split_string src.go_mf)) = Except.ok mfS)
    (hbpS : canonList dag (orElseNil (_split_string src.go_bp)) = Except.ok bpS)
    (hccS : canonList dag (orElseNil (_split_string src.go_cc)) = Except.ok ccS)
    (hmfT : canonList dag (orElseNil (_split_string tgt.go_mf)) = Except.ok mfT)
    (hbpT : canonList dag (orElseNil (_split_string tgt.go_bp)) = Except.ok bpT)
    (hccT : canonList dag (orElseNil (_split_string tgt.go_cc)) = Except.ok ccT)
    (humf : canonList dag (group_terms_by_ontology_type dag
      (get_up_to_lca dag mfS mfT ++ get_up_to_lca dag bpS bpT ++
        get_up_to_lca dag ccS ccT) 2).mf = Except.ok umf)
    (hubp : canonList dag (group_terms_by_ontology_type dag
      (get_up_to_lca dag mfS mfT ++ get_up_to_lca dag bpS bpT ++
        get_up_to_lca dag ccS ccT) 2).bp = Except.ok ubp)
    (hucc : canonList dag (group_terms_by_ontology_type dag
      (get_up_to_lca dag mfS mfT ++ get_up_to_lca dag bpS bpT ++
        get_up_to_lca dag ccS ccT) 2).cc = Except.ok ucc) :
    compute_interaction_features dag (some src) (some tgt) =
      Except.ok (some (featureRecordOf (mfS ++ mfT) (bpS ++ bpT) (ccS ++ ccT)
        umf ubp ucc
        (orElseNil (_split_string src.interpro) ++ orElseNil (_split_string tgt.interpro))
        (orElseNil (_split_string src.pfam) ++ orElseNil (_split_string tgt.pfam))
        (orElseNil (_split_string src.keywords) ++ orElseNil (_split_string tgt.keywords)))) := by
  simp only [compute_interaction_features, hmfS, hbpS, hccS, hmfT, hbpT, hccT]
  simp only [humf, hubp, hucc]

/-- Inversion of a successful `compute_interaction_features` run into
its nine canonicalization steps and the shape of the returned record. -/
theorem compute_ok_inversion {dag : Dag} {src tgt : Protein} {v : Option FeatureRecord}
    (h : compute_interaction_features dag (some src) (some tgt) = Except.ok v) :
    ∃ mfS bpS ccS mfT bpT ccT umf ubp ucc,
      canonList dag (orElseNil (_split_string src.go_mf)) = Except.ok mfS ∧
      canonList dag (orElseNil (_split_string src.go_bp)) = Except.ok bpS ∧
      canonList dag (orElseNil (_split_string src.go_cc)) = Except.ok ccS ∧
      canonList dag (orElseNil (_split_string tgt.go_mf)) = Except.ok mfT ∧
      canonList dag (orElseNil (_split_string tgt.go_bp)) = Except.ok bpT ∧
      canonList dag (orElseNil (_split_string tgt.go_cc)) = Except.ok ccT ∧
      canonList dag (group_terms_by_ontology_type dag
        (get_up_to_lca dag mfS mfT ++ get_up_to_lca dag bpS bpT ++
          get_up_to_lca dag ccS ccT) 2).mf = Except.ok umf ∧
      canonList dag (group_terms_by_ontology_type dag
        (get_up_to_lca dag mfS mfT ++ get_up_to_lca dag bpS bpT ++
          get_up_to_lca dag ccS ccT) 2).bp = Except.ok ubp ∧
      canonList dag (group_terms_by_ontology_type dag
        (get_up_to_lca dag mfS mfT ++ get_up_to_lca dag bpS bpT ++
          get_up_to_lca dag ccS ccT) 2).cc = Except.ok ucc ∧
      v = some (featureRecordOf (mfS ++ mfT) (bpS ++ bpT) (ccS ++ ccT) umf ubp ucc
        (orElseNil (_split_string src.interpro) ++ orElseNil (_split_string tgt.interpro))
        (orElseNil (_split_string src.pfam) ++ orElseNil (_split_string tgt.pfam))
        (orElseNil (_split_string src.keywords) ++ orElseNil (_split_string tgt.keywords))) := by
  cases hmfS : canonList dag (orElseNil (_split_string src.go_mf)) with
  | error e =>
    simp only [compute_interaction_features, hmfS] at h
    exact Except.noConfusion h
  | ok mfS =>
  cases hbpS : canonList dag (orElseNil (_split_string src.go_bp)) with
  | error e =>
    simp only [compute_interaction_features, hmfS, hbpS] at h
    exact Except.noConfusion h
  | ok bpS =>
  cases hccS : canonList dag (orElseNil (_split_string src.go_cc)) with
  | error e =>
    simp only [compute_interaction_features, hmfS, hbpS, hccS] at h
    exact Except.noConfusion h
  | ok ccS =>
  cases hmfT : canonList dag (orElseNil (_split_string tgt.go_mf)) with
  | error e =>
    simp only [compute_interaction_features, hmfS, hbpS, hccS, hmfT] at h
    exact Except.noConfusion h
  | ok mfT =>
  cases hbpT : canonList dag (orElseNil (_split_string tgt.go_bp)) with
  | error e =>
    simp only [compute_interaction_features, hmfS, hbpS, hccS, hmfT, hbpT] at h
    exact Except.noConfusion h
  | ok bpT =>
  cases hccT : canonList dag (orElseNil (_split_string tgt.go_cc)) with
  | error e =>
    simp only [compute_interaction_features, hmfS, hbpS, hccS, hmfT, hbpT, hccT] at h
    exact Except.noConfusion h
  | ok ccT =>
  cases humf : canonList dag (group_terms_by_ontology_type dag
      (get_up_to_lca dag mfS mfT ++ get_up_to_lca dag bpS bpT ++
        get_up_to_lca dag ccS ccT) 2).mf with
  | error e =>
    simp only [compute_interaction_features, hmfS, hbpS, hccS, hmfT, hbpT, hccT, humf] at h
    exact Except.noConfusion h
  | ok umf =>
  cases hubp : canonList dag (group_terms_by_ontology_type dag
      (get_up_to_lca dag mfS mfT ++ get_up_to_lca dag bpS bpT ++
        get_up_to_lca dag ccS ccT) 2).bp with
  | error e =>
    simp only [compute_interaction_features, hmfS, hbpS, hccS, hmfT, hbpT, hccT, humf,
      hubp] at h
    exact Except.noConfusion h
  | ok ubp =>
  cases hucc : canonList dag (group_terms_by_ontology_type dag
      (get_up_to_lca dag mfS mfT ++ get_up_to_lca dag bpS bpT ++
        get_up_to_lca dag ccS ccT) 2).cc with
  | error e =>
    simp only [compute_interaction_features, hmfS, hbpS, hccS, hmfT, hbpT, hccT, humf,
      hubp, hucc] at h
    exact Except.noConfusion h
  | ok ucc =>
    have heq := compute_eq_of_canon hmfS hbpS hccS hmfT hbpT hccT humf hubp hucc
    rw [h] at heq
    refine ⟨mfS, bpS, ccS, mfT, bpT, ccT, umf, ubp, ucc, rfl, rfl, rfl, rfl, rfl,
      rfl, humf, hubp, hucc, ?_⟩
    exact (Except.ok.inj heq)

/-- Field lookup on an assembled record: `go_mf`. -/
theorem recordField_go_mf (a b c d e f g h i : List PyStr) :
    recordField (featureRecordOf a b c d e f g h i) "go_mf".toList = some a := rfl

/-- Field lookup on an assembled record: `go_bp`. -/
theorem recordField_go_bp (a b c d e f g h i : List PyStr) :
    recordField (featureRecordOf a b c d e f g h i) "go_bp".toList = some b := rfl

/-- Field lookup on an assembled record: `go_cc`. -/
theorem recordField_go_cc (a b c d e f g h i : List PyStr) :
    recordField (featureRecordOf a b c d e f g h i) "go_cc".toList = some c := rfl

/-- Field lookup on an assembled record: `ulca_go_mf`. -/
theorem recordField_ulca_go_mf (a b c d e f g h i : List PyStr) :
    recordField (featureRecordOf a b c d e f g h i) "ulca_go_mf".toList = some d := rfl

/-- Field lookup on an assembled record: `ulca_go_bp`. -/
theorem recordField_ulca_go_bp (a b c d e f g h i : List PyStr) :
    recordField (featureRecordOf a b c d e f g h i) "ulca_go_bp".toList = some e := rfl

/-- Field lookup on an assembled record: `ulca_go_cc`. -/
theorem recordField_ulca_go_cc (a b c d e f g h i : List PyStr) :
    recordField (featureRecordOf a b c d e f g h i) "ulca_go_cc".toList = some f := rfl

/-- Field lookup on an assembled record: `interpro`. -/
theorem recordField_interpro (a b c d e f g h i : List PyStr) :
    recordField (featureRecordOf a b c d e f g h i) "interpro".toList = some g := rfl

/-- Field lookup on an assembled record: `pfam`. -/
theorem recordField_pfam (a b c d e f g h i : List PyStr) :
    recordField (featureRecordOf a b c d e f g h i) "pfam".toList = some h := rfl

/-- Field lookup on an assembled record: `keywords`. -/
theorem recordField_keywords (a b c d e f g h i : List PyStr) :
    recordField (featureRecordOf a b c d e f g h i) "keywords".toList = some i := rfl

/-- Claim C2: for non-null inputs, if any parsed GO accession of the
six GO fields is absent from the term store, the computation fails with
the propagated lookup error (`UnknownTermError` is the only error) and
returns neither null nor a partial record. -/
theorem claim_C2 (dag : Dag) (src tgt : Protein)
    (h : (parsedGoAccessions src ++ parsedGoAccessions tgt).any
      (fun a => (dagFind dag a).isNone) = true) :
    resultFails (compute_interaction_features dag (some src) (some tgt)) = true := by
  rcases List.any_eq_true.mp h with ⟨a, ha, hisnone⟩
  have hnone : dagFind dag a = none := Option.isNone_iff_eq_none.mp hisnone
  cases hr : compute_interaction_features dag (some src) (some tgt) with
  | error e => rfl
  | ok v =>
    exfalso
    rcases compute_ok_inversion hr with ⟨mfS, bpS, ccS, mfT, bpT, ccT, umf, ubp, ucc,
      h1, h2, h3, h4, h5, h6, _, _, _, _⟩
    have hsome : ∃ t, dagFind dag a = some t := by
      unfold parsedGoAccessions at ha
      rcases List.mem_append.mp ha with hsrc | htgt
      · rcases List.mem_append.mp hsrc with h78 | h9
        · rcases List.mem_append.mp h78 with h9 | h9
          · exact canonList_ok_resolves h1 a h9
          · exact canonList_ok_resolves h2 a h9
        · exact canonList_ok_resolves h3 a h9
      · rcases List.mem_append.mp htgt with h78 | h9
        · rcases List.mem_append.mp h78 with h9 | h9
          · exact canonList_ok_resolves h4 a h9
          · exact canonList_ok_resolves h5 a h9
        · exact canonList_ok_resolves h6 a h9
    rcases hsome with ⟨t, ht⟩
    rw [hnone] at ht
    exact Option.noConfusion ht

/-- Witness for C2: a source protein carrying `GO:9999`, absent from
the sample store. -/
theorem claim_C2_witness :
    (parsedGoAccessions (Protein.mk (some "GO:9999".toList) none none none none none) ++
        parsedGoAccessions sampleTgt).any
      (fun a => (dagFind sampleDag a).isNone) = true ∧
    resultFails (compute_interaction_features sampleDag
      (some (Protein.mk (some "GO:9999".toList) none none none none none))
      (some sampleTgt)) = true :=
  ⟨by decide, claim_C2 sampleDag
    (Protein.mk (some "GO:9999".toList) none none none none none) sampleTgt (by decide)⟩

/-- Claim C8: any record the computation returns carries exactly the
nine keys `go_mf`, `go_bp`, `go_cc`, `ulca_go_mf`, `ulca_go_bp`,
`ulca_go_cc`, `interpro`, `pfam`, `keywords`, in this order, whatever
the inputs were. -/
theorem claim_C8 (dag : Dag) (source target : Option Protein) (r : FeatureRecord)
    (h : compute_interaction_features dag source target = Except.ok (some r)) :
    r.map Prod.fst = ["go_mf".toList, "go_bp".toList, "go_cc".toList,
      "ulca_go_mf".toList, "ulca_go_bp".toList, "ulca_go_cc".toList,
      "interpro".toList, "pfam".toList, "keywords".toList] := by
  cases source with
  | none => cases target <;> exact Option.noConfusion (Except.ok.inj h)
  | some src =>
    cases target with
    | none => exact Option.noConfusion (Except.ok.inj h)
    | some tgt =>
      rcases compute_ok_inversion h with ⟨mfS, bpS, ccS, mfT, bpT, ccT, umf, ubp, ucc,
        _, _, _, _, _, _, _, _, _, hv⟩
      obtain rfl := Option.some.inj hv
      rfl

/-- Witness for C8 on the sample inputs. -/
theorem claim_C8_witness :
    sampleRecord.map Prod.fst = ["go_mf".toList, "go_bp".toList, "go_cc".toList,
      "ulca_go_mf".toList, "ulca_go_bp".toList, "ulca_go_cc".toList,
      "interpro".toList, "pfam".toList, "keywords".toList] :=
  claim_C8 sampleDag (some sampleSrc) (some sampleTgt) sampleRecord rfl

/-- Claim C4: in any returned record, each raw field is the straight
concatenation of the source's parsed token list followed by the
target's: the three GO fields carry the canonical ids obtained from the
term store, and the `interpro`, `pfam` and `keywords` tokens are the
parsed tokens unchanged. -/
theorem claim_C4 (dag : Dag) (src tgt : Protein) (r : FeatureRecord)
    (mfS bpS ccS mfT bpT ccT : List PyStr)
    (hmfS : canonList dag (orElseNil (_split_string src.go_mf)) = Except.ok mfS)
    (hbpS : canonList dag (orElseNil (_split_string src.go_bp)) = Except.ok bpS)
    (hccS : canonList dag (orElseNil (_split_string src.go_cc)) = Except.ok ccS)
    (hmfT : canonList dag (orElseNil (_split_string tgt.go_mf)) = Except.ok mfT)
    (hbpT : canonList dag (orElseNil (_split_string tgt.go_bp)) = Except.ok bpT)
    (hccT : canonList dag (orElseNil (_split_string tgt.go_cc)) = Except.ok ccT)
    (h : compute_interaction_features dag (some src) (some tgt) = Except.ok (some r)) :
    recordField r "go_mf".toList = some (mfS ++ mfT) ∧
    recordField r "go_bp".toList = some (bpS ++ bpT) ∧
    recordField r "go_cc".toList = some (ccS ++ ccT) ∧
    recordField r "interpro".toList =
      some (orElseNil (_split_string src.interpro) ++ orElseNil (_split_string tgt.interpro)) ∧
    recordField r "pfam".toList =
      some (orElseNil (_split_string src.pfam) ++ orElseNil (_split_string tgt.pfam)) ∧
    recordField r "keywords".toList =
      some (orElseNil (_split_string src.keywords) ++ orElseNil (_split_string tgt.keywords)) := by
  rcases compute_ok_inversion h with ⟨mfS2, bpS2, ccS2, mfT2, bpT2, ccT2, umf, ubp, ucc,
    h1, h2, h3, h4, h5, h6, _, _, _, hv⟩
  rw [hmfS] at h1
  rw [hbpS] at h2
  rw [hccS] at h3
  rw [hmfT] at h4
  rw [hbpT] at h5
  rw [hccT] at h6
  obtain rfl := Except.ok.inj h1
  obtain rfl := Except.ok.inj h2
  obtain rfl := Except.ok.inj h3
  obtain rfl := Except.ok.inj h4
  obtain rfl := Except.ok.inj h5
  obtain rfl := Except.ok.inj h6
  obtain rfl := Option.some.inj hv
  exact ⟨rfl, rfl, rfl, rfl, rfl, rfl⟩

/-- Witness for C4 on the sample inputs. -/
theorem claim_C4_witness :
    recordField sampleRecord "go_mf".toList = some ["GO:1".toList, "GO:2".toList] ∧
    recordField sampleRecord "go_bp".toList = some [] ∧
    recordField sampleRecord "go_cc".toList = some [] ∧
    recordField sampleRecord "interpro".toList = some ["IPR1".toList, "xyz".toList] ∧
    recordField sampleRecord "pfam".toList = some [] ∧
    recordField sampleRecord "keywords".toList = some ["kw1".toList] :=
  claim_C4 sampleDag sampleSrc sampleTgt sampleRecord
    ["GO:1".toList] [] [] ["GO:2".toList] [] [] rfl rfl rfl rfl rfl rfl rfl

/-- The parser yields null on a null-or-empty field. -/
theorem split_string_of_empty {v : Option PyStr} (h : v = none ∨ v = some []) :
    _split_string v = none := by
  rcases h with rfl | rfl
  · rfl
  · rfl

/-- Claim C6: for non-null proteins whose six annotation fields are all
null or empty, the computation returns a record (not null) whose nine
values are all empty sequences, over any term store. -/
theorem claim_C6 (dag : Dag) (src tgt : Protein)
    (hs : EmptyAnnotations src) (ht : EmptyAnnotations tgt) :
    compute_interaction_features dag (some src) (some tgt) =
      Except.ok (some (featureRecordOf [] [] [] [] [] [] [] [] [])) := by
  obtain ⟨hs1, hs2, hs3, hs4, hs5, hs6⟩ := hs
  obtain ⟨ht1, ht2, ht3, ht4, ht5, ht6⟩ := ht
  have e1 : canonList dag (orElseNil (_split_string src.go_mf)) = Except.ok [] := by
    rw [split_string_of_empty hs1]; rfl
  have e2 : canonList dag (orElseNil (_split_string src.go_bp)) = Except.ok [] := by
    rw [split_string_of_empty hs2]; rfl
  have e3 : canonList dag (orElseNil (_split_string src.go_cc)) = Except.ok [] := by
    rw [split_string_of_empty hs3]; rfl
  have e4 : canonList dag (orElseNil (_split_string tgt.go_mf)) = Except.ok [] := by
    rw [split_string_of_empty ht1]; rfl
  have e5 : canonList dag (orElseNil (_split_string tgt.go_bp)) = Except.ok [] := by
    rw [split_string_of_empty ht2]; rfl
  have e6 : canonList dag (orElseNil (_split_string tgt.go_cc)) = Except.ok [] := by
    rw [split_string_of_empty ht3]; rfl
  have heq := compute_eq_of_canon e1 e2 e3 e4 e5 e6 rfl rfl rfl
  rw [heq, split_string_of_empty hs4, split_string_of_empty hs5, split_string_of_empty hs6,
    split_string_of_empty ht4, split_string_of_empty ht5, split_string_of_empty ht6]
  rfl

/-- Witness for C6: two all-null proteins over the sample store. -/
theorem claim_C6_witness :
    EmptyAnnotations noneProtein ∧
    compute_interaction_features sampleDag (some noneProtein) (some noneProtein) =
      Except.ok (some (featureRecordOf [] [] [] [] [] [] [] [] [])) :=
  ⟨⟨Or.inl rfl, Or.inl rfl, Or.inl rfl, Or.inl rfl, Or.inl rfl, Or.inl rfl⟩,
    claim_C6 sampleDag noneProtein noneProtein
      ⟨Or.inl rfl, Or.inl rfl, Or.inl rfl, Or.inl rfl, Or.inl rfl, Or.inl rfl⟩
      ⟨Or.inl rfl, Or.inl rfl, Or.inl rfl, Or.inl rfl, Or.inl rfl, Or.inl rfl⟩⟩

/-- Membership in a sub-ontology selection implies the accession
resolves in the store. -/
theorem mem_termsOfType_isSome {dag : Dag} {ty : OntType} {terms : List PyStr} {x : PyStr}
    (hx : x ∈ termsOfType dag ty terms) : (dagFind dag x).isSome = true := by
  have hp : (match dagFind dag x with
    | some term => decide (term.ontology_type = ty)
    | none => false) = true := (List.mem_filter.mp hx).2
  cases hfind : dagFind dag x with
  | none => rw [hfind] at hp; exact absurd hp (by simp)
  | some t => rfl

/-- Everything the occurrence cap keeps was in its input. -/
theorem capOccAux_subset (m : Nat) :
    ∀ (l kept : List PyStr) (x : PyStr), x ∈ capOccAux m kept l → x ∈ l := by
  intro l
  induction l with
  | nil => intro kept x hx; exact absurd hx (List.not_mem_nil x)
  | cons y ys ih =>
    intro kept x hx
    simp only [capOccAux] at hx
    by_cases hk : kept.count y < m
    · rw [if_pos hk] at hx
      rcases List.mem_cons.mp hx with rfl | hx2
      · exact List.mem_cons_self x ys
      · exact List.mem_cons_of_mem y (ih (y :: kept) x hx2)
    · rw [if_neg hk] at hx
      exact List.mem_cons_of_mem y (ih kept x hx)

/-- Every accession in a regrouped sub-ontology list resolves in the
store. -/
theorem grouped_mem_isSome {dag : Dag} {terms : List PyStr} {ty : OntType} {m : Nat}
    {x : PyStr} (hx : x ∈ capOcc m (termsOfType dag ty terms)) :
    (dagFind dag x).isSome = true :=
  mem_termsOfType_isSome (capOccAux_subset m _ [] x hx)

/-- Claim C10: the computation looks only GO tokens up in the term
store; when every parsed GO accession of both proteins resolves, the
run succeeds — whatever the `interpro`, `pfam` and `keywords` fields
contain — and those three fields appear verbatim (source's parsed
tokens then target's) in the returned record. -/
theorem claim_C10 (dag : Dag) (src tgt : Protein)
    (h : (parsedGoAccessions src ++ parsedGoAccessions tgt).all
      (fun a => (dagFind dag a).isSome) = true) :
    resultFails (compute_interaction_features dag (some src) (some tgt)) = false ∧
    okRecordField (compute_interaction_features dag (some src) (some tgt)) "interpro".toList =
      some (orElseNil (_split_string src.interpro) ++ orElseNil (_split_string tgt.interpro)) ∧
    okRecordField (compute_interaction_features dag (some src) (some tgt)) "pfam".toList =
      some (orElseNil (_split_string src.pfam) ++ orElseNil (_split_string tgt.pfam)) ∧
    okRecordField (compute_interaction_features dag (some src) (some tgt)) "keywords".toList =
      some (orElseNil (_split_string src.keywords) ++ orElseNil (_split_string tgt.keywords)) := by
  have hall := List.all_eq_true.mp h
  have hres : ∀ a ∈ parsedGoAccessions src ++ parsedGoAccessions tgt,
      (dagFind dag a).isSome = true := fun a ha => hall a ha
  have hsrcRes : ∀ a ∈ parsedGoAccessions src, (dagFind dag a).isSome = true :=
    fun a ha => hres a (List.mem_append.mpr (Or.inl ha))
  have htgtRes : ∀ a ∈ parsedGoAccessions tgt, (dagFind dag a).isSome = true :=
    fun a ha => hres a (List.mem_append.mpr (Or.inr ha))
  have hs1 : ∀ a ∈ orElseNil (_split_string src.go_mf), (dagFind dag a).isSome = true :=
    fun a ha => hsrcRes a (List.mem_append.mpr (Or.inl (List.mem_append.mpr (Or.inl ha))))
  have hs2 : ∀ a ∈ orElseNil (_split_string src.go_bp), (dagFind dag a).isSome = true :=
    fun a ha => hsrcRes a (List.mem_append.mpr (Or.inl (List.mem_append.mpr (Or.inr ha))))
  have hs3 : ∀ a ∈ orElseNil (_split_string src.go_cc), (dagFind dag a).isSome = true :=
    fun a ha => hsrcRes a (List.mem_append.mpr (Or.inr ha))
  have ht1 : ∀ a ∈ orElseNil (_split_string tgt.go_mf), (dagFind dag a).isSome = true :=
    fun a ha => htgtRes a (List.mem_append.mpr (Or.inl (List.mem_append.mpr (Or.inl ha))))
  have ht2 : ∀ a ∈ orElseNil (_split_string tgt.go_bp), (dagFind dag a).isSome = true :=
    fun a ha => htgtRes a (List.mem_append.mpr (Or.inl (List.mem_append.mpr (Or.inr ha))))
  have ht3 : ∀ a ∈ orElseNil (_split_string tgt.go_cc), (dagFind dag a).isSome = true :=
    fun a ha => htgtRes a (List.mem_append.mpr (Or.inr ha))
  obtain ⟨mfS, hmfS⟩ := canonList_resolves_ok hs1
  obtain ⟨bpS, hbpS⟩ := canonList_resolves_ok hs2
  obtain ⟨ccS, hccS⟩ := canonList_resolves_ok hs3
  obtain ⟨mfT, hmfT⟩ := canonList_resolves_ok ht1
  obtain ⟨bpT, hbpT⟩ := canonList_resolves_ok ht2
  obtain ⟨ccT, hccT⟩ := canonList_resolves_ok ht3
  obtain ⟨umf, humf⟩ := canonList_resolves_ok
    (fun a (ha : a ∈ (group_terms_by_ontology_type dag
      (get_up_to_lca dag mfS mfT ++ get_up_to_lca dag bpS bpT ++
        get_up_to_lca dag ccS ccT) 2).mf) => grouped_mem_isSome ha)
  obtain ⟨ubp, hubp⟩ := canonList_resolves_ok
    (fun a (ha : a ∈ (group_terms_by_ontology_type dag
      (get_up_to_lca dag mfS mfT ++ get_up_to_lca dag bpS bpT ++
        get_up_to_lca dag ccS ccT) 2).bp) => grouped_mem_isSome ha)
  obtain ⟨ucc, hucc⟩ := canonList_resolves_ok
    (fun a (ha : a ∈ (group_terms_by_ontology_type dag
      (get_up_to_lca dag mfS mfT ++ get_up_to_lca dag bpS bpT ++
        get_up_to_lca dag ccS ccT) 2).cc) => grouped_mem_isSome ha)
  have heq := compute_eq_of_canon hmfS hbpS hccS hmfT hbpT hccT humf hubp hucc
  rw [heq]
  exact ⟨rfl, recordField_interpro _ _ _ _ _ _ _ _ _, recordField_pfam _ _ _ _ _ _ _ _ _,
    recordField_keywords _ _ _ _ _ _ _ _ _⟩

/-- Witness for C10: a source with arbitrary unknown domain tokens next
to resolvable GO terms. -/
theorem claim_C10_witness :
    (parsedGoAccessions (Protein.mk (some "GO:1".toList) none none
        (some "totally-unknown, ???".toList) none none) ++
      parsedGoAccessions sampleTgt).all
      (fun a => (dagFind sampleDag a).isSome) = true ∧
    resultFails (compute_interaction_features sampleDag
      (some (Protein.mk (some "GO:1".toList) none none
        (some "totally-unknown, ???".toList) none none)) (some sampleTgt)) = false ∧
    okRecordField (compute_interaction_features sampleDag
      (some (Protein.mk (some "GO:1".toList) none none
        (some "totally-unknown, ???".toList) none none)) (some sampleTgt))
      "interpro".toList = some ["totally-unknown".toList, "???".toList] ∧
    okRecordField (compute_interaction_features sampleDag
      (some (Protein.mk (some "GO:1".toList) none none
        (some "totally-unknown, ???".toList) none none)) (some sampleTgt))
      "pfam".toList = some [] ∧
    okRecordField (compute_interaction_features sampleDag
      (some (Protein.mk (some "GO:1".toList) none none
        (some "totally-unknown, ???".toList) none none)) (some sampleTgt))
      "keywords".toList = some ["kw1".toList] :=
  ⟨by decide, claim_C10 sampleDag
    (Protein.mk (some "GO:1".toList) none none
      (some "totally-unknown, ???".toList) none none) sampleTgt (by decide)⟩

/-- The occurrence cap keeps at most `m` minus the occurrences already
emitted. -/
theorem capOccAux_count_le (m : Nat) (a : PyStr) :
    ∀ (l kept : List PyStr), (capOccAux m kept l).count a ≤ m - kept.count a := by
  intro l
  induction l with
  | nil => intro kept; simp [capOccAux]
  | cons x xs ih =>
    intro kept
    simp only [capOccAux]
    by_cases hk : kept.count x < m
    · rw [if_pos hk]
      by_cases hax : a = x
      · subst hax
        have h2 := ih (a :: kept)
        rw [List.count_cons_self] at h2
        rw [List.count_cons_self]
        omega
      · have h2 := ih (x :: kept)
        rw [List.count_cons_of_ne hax] at h2
        rw [List.count_cons_of_ne hax]
        exact h2
    · rw [if_neg hk]
      exact ih kept

/-- No element occurs more than `m` times after the occurrence cap. -/
theorem capOcc_count_le (m : Nat) (a : PyStr) (l : List PyStr) :
    (capOcc m l).count a ≤ m := by
  have h := capOccAux_count_le m a l []
  simpa using h

/-- A true executable canonicality check gives `TermCanonical`. -/
theorem tcCheck_sound {dag : Dag} {a : PyStr} (h : tcCheck dag a = true) :
    TermCanonical dag a := by
  intro t ht
  unfold tcCheck at h
  rw [ht] at h
  exact of_decide_eq_true h

/-- A true executable well-formedness check gives `WellFormedDag`. -/
theorem wellFormed_of_check (dag : Dag) (h : wellFormedCheck dag = true) :
    WellFormedDag dag := by
  intro a term hfind
  unfold dagFind at hfind
  cases hf : dag.find? (fun p => p.1 = a) with
  | none => rw [hf] at hfind; exact Option.noConfusion hfind
  | some pr =>
    rw [hf] at hfind
    have hterm : pr.2 = term := Option.some.inj hfind
    have hmem : pr ∈ dag := List.mem_of_find?_eq_some hf
    have hck := List.all_eq_true.mp h pr hmem
    rw [hterm] at hck
    rcases (Bool.and_eq_true _ _).mp hck with ⟨hck1, hck2⟩
    exact ⟨tcCheck_sound hck1, fun p hp => tcCheck_sound (List.all_eq_true.mp hck2 p hp)⟩

/-- The ancestor traversal only discovers canonically-behaving
accessions when started from such accessions, over a well-formed
store. -/
theorem ancestorsFuel_canonical {dag : Dag} (hwf : WellFormedDag dag) :
    ∀ (n : Nat) (work visited : List PyStr),
      (∀ x ∈ work, TermCanonical dag x) → (∀ x ∈ visited, TermCanonical dag x) →
      ∀ y ∈ ancestorsFuel dag n work visited, TermCanonical dag y := by
  intro n
  induction n with
  | zero => intro work visited hw hv y hy; exact hv y hy
  | succ n ih =>
    intro work visited hw hv y hy
    cases work with
    | nil => simp only [ancestorsFuel] at hy; exact hv y hy
    | cons t rest =>
      simp only [ancestorsFuel] at hy
      by_cases hmem : t ∈ visited
      · rw [if_pos hmem] at hy
        exact ih rest visited (fun x hx => hw x (List.mem_cons_of_mem t hx)) hv y hy
      · rw [if_neg hmem] at hy
        refine ih _ _ ?_ ?_ y hy
        · intro x hx
          rcases List.mem_append.mp hx with hx1 | hx2
          · exact hw x (List.mem_cons_of_mem t hx1)
          · cases hfind : dagFind dag t with
            | none => rw [hfind] at hx2; exact absurd hx2 (List.not_mem_nil x)
            | some term =>
              rw [hfind] at hx2
              exact (hwf t term hfind).2 x hx2
        · intro x hx
          rcases List.mem_append.mp hx with hx1 | hx2
          · exact hv x hx1
          · rcases List.mem_singleton.mp hx2 with rfl
            exact hw x (List.mem_cons_self x rest)

/-- Every ancestor of a canonically-behaving accession behaves
canonically, over a well-formed store. -/
theorem ancestors_canonical {dag : Dag} (hwf : WellFormedDag dag) {t0 : PyStr}
    (h0 : TermCanonical dag t0) : ∀ y ∈ ancestors dag t0, TermCanonical dag y := by
  intro y hy
  refine ancestorsFuel_canonical hwf (dagFuel dag [t0]) [t0] [] ?_ ?_ y hy
  · intro x hx
    rcases List.mem_singleton.mp hx with rfl
    exact h0
  · intro x hx
    exact absurd hx (List.not_mem_nil x)

/-- Deduplication keeps only elements of its input. -/
theorem dedupAux_subset : ∀ (l seen : List PyStr) (x : PyStr), x ∈ dedupAux seen l → x ∈ l := by
  intro l
  induction l with
  | nil => intro seen x hx; exact absurd hx (List.not_mem_nil x)
  | cons y ys ih =>
    intro seen x hx
    simp only [dedupAux] at hx
    by_cases hm : y ∈ seen
    · rw [if_pos hm] at hx
      exact List.mem_cons_of_mem y (ih seen x hx)
    · rw [if_neg hm] at hx
      rcases List.mem_cons.mp hx with rfl | hx2
      · exact List.mem_cons_self x ys
      · exact List.mem_cons_of_mem y (ih (y :: seen) x hx2)

/-- Every induced term of `get_up_to_lca` lies in the ancestor set of
one of the input terms. -/
theorem get_up_to_lca_mem {dag : Dag} {A B : List PyStr} {y : PyStr}
    (hy : y ∈ get_up_to_lca dag A B) :
    ∃ t0, (t0 ∈ A ∨ t0 ∈ B) ∧ y ∈ ancestors dag t0 := by
  have hy2 := dedupAux_subset _ [] y hy
  rcases List.mem_flatMap.mp hy2 with ⟨ta, hta, hy3⟩
  rcases List.mem_flatMap.mp hy3 with ⟨tb, htb, hy4⟩
  rcases List.mem_flatMap.mp hy4 with ⟨c, hc, hy5⟩
  rcases List.mem_append.mp hy5 with h5 | h5
  · exact ⟨ta, Or.inl hta, (List.mem_filter.mp h5).1⟩
  · exact ⟨tb, Or.inr htb, (List.mem_filter.mp h5).1⟩

/-- Canonicalization outputs behave canonically over a well-formed
store. -/
theorem canonList_out_canonical {dag : Dag} (hwf : WellFormedDag dag)
    {l r : List PyStr} (h : canonList dag l = Except.ok r) :
    ∀ y ∈ r, TermCanonical dag y := by
  intro y hy
  rcases canonList_ok_out h y hy with ⟨a, t, hfind, rfl⟩
  exact (hwf a t hfind).1

/-- Claim C5: in every returned record, over a well-formed term store,
none of the `ulca_go_mf`, `ulca_go_bp`, `ulca_go_cc` sequences contains
any single accession more than 2 times (the regrouping cap
`max_count=2`), as the accessions appear in the record, i.e. after the
final canonicalization through the store. -/
theorem claim_C5 (dag : Dag) (src tgt : Protein) (hwf : WellFormedDag dag)
    (key : PyStr) (l : List PyStr) (a : PyStr)
    (hkey : key = "ulca_go_mf".toList ∨ key = "ulca_go_bp".toList ∨
      key = "ulca_go_cc".toList)
    (hl : okRecordField (compute_interaction_features dag (some src) (some tgt)) key =
      some l) :
    l.count a ≤ 2 := by
  cases hr : compute_interaction_features dag (some src) (some tgt) with
  | error e =>
    unfold okRecordField at hl
    rw [hr] at hl
    exact Option.noConfusion hl
  | ok v =>
    cases v with
    | none =>
      unfold okRecordField at hl
      rw [hr] at hl
      exact Option.noConfusion hl
    | some r =>
      unfold okRecordField at hl
      rw [hr] at hl
      have hl2 : recordField r key = some l := hl
      rcases compute_ok_inversion hr with ⟨mfS, bpS, ccS, mfT, bpT, ccT, umf, ubp, ucc,
        h1, h2, h3, h4, h5, h6, humf, hubp, hucc, hv⟩
      obtain rfl := Option.some.inj hv
      have hterms : ∀ y ∈ get_up_to_lca dag mfS mfT ++ get_up_to_lca dag bpS bpT ++
          get_up_to_lca dag ccS ccT, TermCanonical dag y := by
        intro y hy
        rcases List.mem_append.mp hy with h78 | h9
        · rcases List.mem_append.mp h78 with h9 | h9
          · rcases get_up_to_lca_mem h9 with ⟨t0, ht0, hanc⟩
            rcases ht0 with ht0 | ht0
            · exact ancestors_canonical hwf (canonList_out_canonical hwf h1 t0 ht0) y hanc
            · exact ancestors_canonical hwf (canonList_out_canonical hwf h4 t0 ht0) y hanc
          · rcases get_up_to_lca_mem h9 with ⟨t0, ht0, hanc⟩
            rcases ht0 with ht0 | ht0
            · exact ancestors_canonical hwf (canonList_out_canonical hwf h2 t0 ht0) y hanc
            · exact ancestors_canonical hwf (canonList_out_canonical hwf h5 t0 ht0) y hanc
        · rcases get_up_to_lca_mem h9 with ⟨t0, ht0, hanc⟩
          rcases ht0 with ht0 | ht0
          · exact ancestors_canonical hwf (canonList_out_canonical hwf h3 t0 ht0) y hanc
          · exact ancestors_canonical hwf (canonList_out_canonical hwf h6 t0 ht0) y hanc
      have hgid : ∀ ty : OntType,
          canonList dag (capOcc 2 (termsOfType dag ty (get_up_to_lca dag mfS mfT ++
            get_up_to_lca dag bpS bpT ++ get_up_to_lca dag ccS ccT))) =
          Except.ok (capOcc 2 (termsOfType dag ty (get_up_to_lca dag mfS mfT ++
            get_up_to_lca dag bpS bpT ++ get_up_to_lca dag ccS ccT))) := by
        intro ty
        apply canonList_id
        intro x hx
        have hx2 := capOccAux_subset 2 _ [] x hx
        have hsome := mem_termsOfType_isSome hx2
        rcases Option.isSome_iff_exists.mp hsome with ⟨t, ht⟩
        exact ⟨t, ht, hterms x (List.mem_filter.mp hx2).1 t ht⟩
      have humf3 : canonList dag (group_terms_by_ontology_type dag
          (get_up_to_lca dag mfS mfT ++ get_up_to_lca dag bpS bpT ++
            get_up_to_lca dag ccS ccT) 2).mf =
          Except.ok (capOcc 2 (termsOfType dag OntType.mf (get_up_to_lca dag mfS mfT ++
            get_up_to_lca dag bpS bpT ++ get_up_to_lca dag ccS ccT))) := hgid OntType.mf
      have hubp3 : canonList dag (group_terms_by_ontology_type dag
          (get_up_to_lca dag mfS mfT ++ get_up_to_lca dag bpS bpT ++
            get_up_to_lca dag ccS ccT) 2).bp =
          Except.ok (capOcc 2 (termsOfType dag OntType.bp (get_up_to_lca dag mfS mfT ++
            get_up_to_lca dag bpS bpT ++ get_up_to_lca dag ccS ccT))) := hgid OntType.bp
      have hucc3 : canonList dag (group_terms_by_ontology_type dag
          (get_up_to_lca dag mfS mfT ++ get_up_to_lca dag bpS bpT ++
            get_up_to_lca dag ccS ccT) 2).cc =
          Except.ok (capOcc 2 (termsOfType dag OntType.cc (get_up_to_lca dag mfS mfT ++
            get_up_to_lca dag bpS bpT ++ get_up_to_lca dag ccS ccT))) := hgid OntType.cc
      rw [humf] at humf3
      rw [hubp] at hubp3
      rw [hucc] at hucc3
      obtain rfl := Except.ok.inj humf3
      obtain rfl := Except.ok.inj hubp3
      obtain rfl := Except.ok.inj hucc3
      rcases hkey with rfl | rfl | rfl
      · rw [recordField_ulca_go_mf] at hl2
        obtain rfl := Option.some.inj hl2
        exact capOcc_count_le 2 a _
      · rw [recordField_ulca_go_bp] at hl2
        obtain rfl := Option.some.inj hl2
        exact capOcc_count_le 2 a _
      · rw [recordField_ulca_go_cc] at hl2
        obtain rfl := Option.some.inj hl2
        exact capOcc_count_le 2 a _

/-- Witness for C5 on the sample inputs, at the key `ulca_go_mf` and
accession `GO:1`. -/
theorem claim_C5_witness :
    (["GO:1".toList, "GO:2".toList] : List PyStr).count "GO:1".toList ≤ 2 :=
  claim_C5 sampleDag sampleSrc sampleTgt (wellFormed_of_check sampleDag (by decide))
    "ulca_go_mf".toList ["GO:1".toList, "GO:2".toList] "GO:1".toList (Or.inl rfl) rfl
